import Mathlib

/-!
Verification of the Pitwall publisher services: a shallow embedding of the
F1 live-timing ingestion code (`publisher/utils.py`, `publisher/tyre.py`,
`publisher/timing.py`, `publisher/telemetry.py`, `publisher/pitlane.py`,
`publisher/radio.py`) together with proofs about the state-merge algorithm,
the frame handlers, the debounce coalescer and the connection negotiation.

JSON values are modelled by the inductive `Pitwall.Json`; Python dicts
(which preserve insertion order and have unique keys) are modelled as
association lists `List (String × α)` with the operations `lookup`
(`d.get(k)` / `k in d`), `setKey` (`d[k] = v`: update in place or append)
and `removeKey` (`d.pop(k, None)`).
-/

set_option maxHeartbeats 1000000

namespace Pitwall

/-- A JSON value as produced by `json.loads`: `null`, booleans, numbers
(the payloads relevant here are integral), strings, arrays and objects.
Objects keep the insertion order of their keys, as Python dicts do. -/
inductive Json where
  | null : Json
  | bool (b : Bool) : Json
  | num (n : Int) : Json
  | str (s : String) : Json
  | arr (elems : List Json) : Json
  | obj (fields : List (String × Json)) : Json

/-- A JSON object body: what a Python dict holds. -/
abbrev JObj := List (String × Json)

/-- `d.get(k)` / the membership test `k in d` on a Python dict:
find the value bound to the first (only) occurrence of `k`. -/
def lookup {α : Type} : List (String × α) → String → Option α
  | [], _ => none
  | (k', v) :: rest, k => if k' = k then some v else lookup rest k

/-- `d[k] = v` on a Python dict: replace the binding in place when the key
is present, append a new binding at the end otherwise. -/
def setKey {α : Type} : List (String × α) → String → α → List (String × α)
  | [], k, v => [(k, v)]
  | (k', v') :: rest, k, v =>
    if k' = k then (k, v) :: rest else (k', v') :: setKey rest k v

/-- `d.pop(k, None)` on a Python dict (the resulting dict). -/
def removeKey {α : Type} : List (String × α) → String → List (String × α)
  | [], _ => []
  | (k', v') :: rest, k =>
    if k' = k then rest else (k', v') :: removeKey rest k

/-- The key list of a dict, in insertion order. -/
def keys {α : Type} (l : List (String × α)) : List String :=
  l.map Prod.fst

/-- `{str(idx): val for idx, val in enumerate(xs)}` starting at index `i`:
the index-to-element dict built from a list, keys being decimal strings. -/
def enumFrom (i : Nat) : List Json → JObj
  | [] => []
  | x :: xs => (Nat.repr i, x) :: enumFrom (i + 1) xs

/-- `{str(idx): val for idx, val in enumerate(xs)}` from `publisher/utils.py`
line 33. -/
def enumerate (xs : List Json) : JObj :=
  enumFrom 0 xs

mutual

/-- `updateDictDelta` from `publisher/utils.py` lines 12-38: recursively
updates a dictionary with the values from a delta dictionary. -/
def updateDictDelta (obj : JObj) : JObj → JObj
  | [] => obj
  | (key, value) :: rest =>
    updateDictDelta (setKey obj key (applyVal (lookup obj key) value)) rest
termination_by delta => sizeOf delta
decreasing_by all_goals simp_wf <;> omega

/-- The per-key action of `updateDictDelta`'s loop body on the current value
`cur = obj.get(key)` and the delta value `value`:
key absent introduces the value; dict onto dict recurses; dict onto list
goes through the index-keyed dict `enumerate`; anything else overwrites. -/
def applyVal (cur : Option Json) (value : Json) : Json :=
  match cur, value with
  | none, _ => value
  | some (Json.obj dc), Json.obj dv => Json.obj (updateDictDelta dc dv)
  | some (Json.arr xs), Json.obj dv =>
    Json.arr ((updateDictDelta (enumerate xs) dv).map Prod.snd)
  | some _, _ => value
termination_by sizeOf value
decreasing_by all_goals simp_wf

end

/-- Python truthiness of a JSON value (`if delta:`, `if value`):
`None`, `False`, `0`, `""`, `[]` and `{}` are falsy. -/
def jsonTruthy : Json → Bool
  | Json.null => false
  | Json.bool b => b
  | Json.num n => n != 0
  | Json.str s => s != ""
  | Json.arr xs => !xs.isEmpty
  | Json.obj fs => !fs.isEmpty

/-- Python runtime errors relevant to the handlers. -/
inductive PyErr where
  | keyError : PyErr
  | typeError : PyErr

/-- One record of a delta frame `M` list: `{"H": hub, "A": [topic, data]}`.
The non-compressed feeds carry JSON objects as delta payloads. -/
structure Record where
  hub : String
  topic : String
  data : JObj

/-- State of a publisher: the external store (topic → canonical JSON object,
as held in Redis) plus the log of `publish` calls made so far. -/
structure PubState where
  store : List (String × JObj)
  published : List (String × JObj)

/-- The Reference-frame block shared by `publisher/tyre.py` (126-129),
`publisher/timing.py` (156-159) and `publisher/radio.py` (173-176):
for each topic the snapshot, minus its top-level `_kf` entry, is written
to the store, replacing whatever was cached. -/
def processReference (store : List (String × JObj)) (refs : List (String × JObj)) :
    List (String × JObj) :=
  refs.foldl (fun s p => setKey s p.1 (removeKey p.2 "_kf")) store

/-- The Reference-frame block of `publisher/pitlane.py` (99-101): the
snapshot is written verbatim, with no `_kf` removal. -/
def pitlaneProcessReference (store : List (String × JObj)) (refs : List (String × JObj)) :
    List (String × JObj) :=
  refs.foldl (fun s p => setKey s p.1 p.2) store

/-- One delta record handled by `publisher/tyre.py` lines 132-152:
ignore non-`Streaming` hubs, pop `_kf`, discard `Heartbeat`, otherwise merge
the delta onto the cached value (or an empty dict), persist the merge, and
publish the delta itself. -/
def tyreProcessRecord (st : PubState) (r : Record) : PubState :=
  if r.hub ≠ "Streaming" then st
  else
    let delta := removeKey r.data "_kf"
    if r.topic = "Heartbeat" then st
    else
      let reference := (lookup st.store r.topic).getD []
      let merged := updateDictDelta reference delta
      { store := setKey st.store r.topic merged
        published := st.published ++ [(r.topic, delta)] }

/-- One frame as received by `publisher/tyre.py`: the optional `R` snapshot
map and the `M` record list (either may be absent, i.e. empty). -/
structure Message where
  R : List (String × JObj)
  M : List Record

/-- `publisher/tyre.py` message loop body: the `R` block, then each `M`
record in order. -/
def tyreProcessMessage (st : PubState) (m : Message) : PubState :=
  m.M.foldl tyreProcessRecord { st with store := processReference st.store m.R }

/-- Feeding a sequence of frames through the `publisher/tyre.py` loop. -/
def tyreRun (st : PubState) (msgs : List Message) : PubState :=
  msgs.foldl tyreProcessMessage st

/-- State of the `publisher/pitlane.py` handler: unlike the other handlers
its record path can persist JSON `null` (it stores back the `None` read on
a cache miss), so the store holds arbitrary JSON values. -/
structure PitlaneState where
  store : List (String × Json)
  published : List (String × JObj)

/-- One delta record handled by `publisher/pitlane.py` lines 103-111: no
`_kf` removal and no `Heartbeat` check. `reference` is what
`json().get(channel)` returns: `None` when the topic is absent or holds
JSON null. `updateDictDelta(reference, delta)` iterates over `delta`, so
with an empty delta nothing runs and `reference` comes back unchanged,
is stored back, and the empty delta is published; with a non-empty delta a
non-mapping `reference` raises on its first iteration (`TypeError` for
`None`), tearing the connection down; otherwise merge, persist and publish
the delta. -/
def pitlaneProcessRecord (st : PitlaneState) (r : Record) : Except PyErr PitlaneState :=
  if r.hub ≠ "Streaming" then Except.ok st
  else
    let reference := (lookup st.store r.topic).getD Json.null
    match r.data with
    | [] =>
      Except.ok
        { store := setKey st.store r.topic reference
          published := st.published ++ [(r.topic, [])] }
    | _ :: _ =>
      match reference with
      | Json.obj cached =>
        Except.ok
          { store := setKey st.store r.topic (Json.obj (updateDictDelta cached r.data))
            published := st.published ++ [(r.topic, r.data)] }
      | _ => Except.error PyErr.typeError

/-- `key.replace(".z", "")`: strip the compressed-topic marker. -/
def stripZ (k : String) : String :=
  k.replace ".z" ""

/-- The Reference-frame block of `publisher/telemetry.py` lines 128-138,
parameterised by the composite
`inflate = json.loads ∘ zlib.decompress(·, -MAX_WBITS) ∘ base64.b64decode`:
each base64 snapshot is inflated, its top-level `_kf` entry popped, and the
result stored under the topic name with the `.z` marker stripped. -/
def telemetryProcessReference (inflate : String → JObj)
    (store : List (String × JObj)) (refs : List (String × String)) :
    List (String × JObj) :=
  refs.foldl (fun s p => setKey s (stripZ p.1) (removeKey (inflate p.2) "_kf")) store

/-- One delta record handled by `publisher/telemetry.py` lines 141-162:
the payload must be a base64 string (`b64decode` raises a `TypeError` on
anything else, e.g. a `Heartbeat` object payload); it is inflated, `_kf`
popped, stored wholesale (no merge) and published. -/
def telemetryProcessRecord (inflate : String → JObj) (st : PubState)
    (hub topic : String) (payload : Json) : Except PyErr PubState :=
  if hub ≠ "Streaming" then Except.ok st
  else
    match payload with
    | Json.str s =>
      let value := removeKey (inflate s) "_kf"
      Except.ok
        { store := setKey st.store (stripZ topic) value
          published := st.published ++ [(stripZ topic, value)] }
    | _ => Except.error PyErr.typeError

/-- State of one `Debouncer` from `publisher/timing.py` lines 41-79: the
pending merged message and the expiry instant of the single outstanding
`_delayed_publish` task, if any. -/
structure DebouncerState where
  message : JObj
  deadline : Option Nat

/-- `Debouncer.add_message` at instant `t`: merge the arrival into the
buffer with `updateDictDelta`, cancel any pending task and start a fresh
one that will fire `interval` units later. -/
def addMessage (interval t : Nat) (st : DebouncerState) (m : JObj) : DebouncerState :=
  { message := updateDictDelta st.message m
    deadline := some (t + interval) }

/-- Discrete-event run of one `Debouncer`: arrivals `(t, m)` in strictly
increasing time order. A pending task whose expiry is not later than the
next arrival fires first, publishing the buffered message and clearing
buffer and task (`_delayed_publish`); otherwise the arrival cancels it.
Returns the list of flushes `(instant, published message)`. -/
def debouncerRun (interval : Nat) (st : DebouncerState) :
    List (Nat × JObj) → List (Nat × JObj)
  | [] =>
    match st.deadline with
    | some e => [(e, st.message)]
    | none => []
  | (t, m) :: rest =>
    match st.deadline with
    | some e =>
      if e ≤ t then
        (e, st.message) :: debouncerRun interval (addMessage interval t ⟨[], none⟩ m) rest
      else
        debouncerRun interval (addMessage interval t st m) rest
    | none => debouncerRun interval (addMessage interval t st m) rest

/-- The extraction comprehension of `publisher/timing.py` lines 178-182:
entries of `delta["Lines"]` that are mappings containing `LastLapTime`
have that leaf popped out; returns the lines after the pops together with
the extracted `(raceNumber, lastLapTime)` pairs. Line values are mappings
in this feed; non-mapping values pass through unextracted. -/
def extractLastLap : JObj → JObj × List (String × Json)
  | [] => ([], [])
  | (k, v) :: rest =>
    let (rest', ex) := extractLastLap rest
    match v with
    | Json.obj l =>
      match lookup l "LastLapTime" with
      | some x => ((k, Json.obj (removeKey l "LastLapTime")) :: rest', (k, x) :: ex)
      | none => ((k, v) :: rest', ex)
    | _ => ((k, v) :: rest', ex)

/-- The payload routed through the Coalescer for one participant. -/
def lastLapMessage (raceNumber : String) (x : Json) : JObj :=
  [("Lines", Json.obj [(raceNumber, Json.obj [("LastLapTime", x)])])]

/-- The debouncer loop of `publisher/timing.py` lines 184-197 at instant
`t`: a missing per-participant `Debouncer` is created (interval 3), and the
extracted value, unless `None`, is merged into it via `add_message`. -/
def timingApplyDebounce (t : Nat) (debs : List (String × DebouncerState)) :
    List (String × Json) → List (String × DebouncerState)
  | [] => debs
  | (rn, x) :: rest =>
    let cur := (lookup debs rn).getD ⟨[], none⟩
    let debs' :=
      match x with
      | Json.null => setKey debs rn cur
      | _ => setKey debs rn (addMessage 3 t cur (lastLapMessage rn x))
    timingApplyDebounce t debs' rest

/-- State of the `publisher/timing.py` handler: the store, the immediate
publish log, and the per-participant debounce buckets (which survive
reconnects). -/
structure TimingState where
  store : List (String × JObj)
  published : List (String × JObj)
  debouncers : List (String × DebouncerState)

/-- One delta record handled by `publisher/timing.py` lines 161-212 at
instant `t`: non-`Streaming` hubs ignored, `_kf` popped, `Heartbeat`
discarded; otherwise the delta is merged onto the cached value and
persisted, the per-participant `LastLapTime` leaves are extracted into the
debounce buckets, participant entries left falsy are dropped from the
remainder, and the remainder is published when non-empty. -/
def timingProcessRecord (t : Nat) (st : TimingState) (r : Record) : TimingState :=
  if r.hub ≠ "Streaming" then st
  else
    let delta := removeKey r.data "_kf"
    if r.topic = "Heartbeat" then st
    else
      let reference := (lookup st.store r.topic).getD []
      let merged := updateDictDelta reference delta
      let store' := setKey st.store r.topic merged
      match lookup delta "Lines" with
      | some (Json.obj lines) =>
        let (lines', extracted) := extractLastLap lines
        let debs' := timingApplyDebounce t st.debouncers extracted
        let delta' := setKey delta "Lines" (Json.obj (lines'.filter (fun p => jsonTruthy p.2)))
        { store := store'
          published :=
            if jsonTruthy (Json.obj delta') then st.published ++ [(r.topic, delta')]
            else st.published
          debouncers := debs' }
      | _ =>
        { store := store'
          published :=
            if jsonTruthy (Json.obj delta) then st.published ++ [(r.topic, delta)]
            else st.published
          debouncers := st.debouncers }

/-- State of the `publisher/radio.py` handler: store, publish log, and the
captures handed off to `captureHandler` tasks (download + transcription
happen outside the stream loop). -/
structure RadioState where
  store : List (String × JObj)
  published : List (String × JObj)
  spawnedCaptures : List Json

/-- One delta record handled by `publisher/radio.py` lines 179-210:
non-`Streaming` hubs ignored, `_kf` popped, `Heartbeat` discarded;
otherwise merge and persist, then spawn one `captureHandler` task per entry
of `delta["Captures"]` (a dict of captures is turned into its value
list). -/
def radioProcessRecord (st : RadioState) (r : Record) : RadioState :=
  if r.hub ≠ "Streaming" then st
  else
    let delta := removeKey r.data "_kf"
    if r.topic = "Heartbeat" then st
    else
      let reference := (lookup st.store r.topic).getD []
      let merged := updateDictDelta reference delta
      let captures :=
        match lookup delta "Captures" with
        | some (Json.arr cs) => cs
        | some (Json.obj cs) => cs.map Prod.snd
        | _ => []
      { store := setKey st.store r.topic merged
        published := st.published
        spawnedCaptures := st.spawnedCaptures ++ captures }

/-- Outcome of the negotiation HTTP request in `publisher/timing.py`
`negotiate` (lines 82-116). `failure` stands for any
`requests.exceptions.RequestException`: connection error, bad status from
`raise_for_status`, or an unparseable body. `success` carries the parsed
JSON body and the optional `Set-Cookie` response header. -/
inductive HttpResult where
  | failure : HttpResult
  | success (body : JObj) (setCookie : Option String) : HttpResult

/-- What a successful negotiation hands to the websocket connection:
the connection token (spliced into the query string) and the replayed
session cookie. -/
structure NegotiateResult where
  token : Json
  cookie : String

/-- `negotiate` from `publisher/timing.py` lines 82-116: a
`RequestException` is caught and the `None` sentinel tuple returned; on a
parsed response, `data["ConnectionToken"]` raises an uncaught `KeyError`
when the key is absent, and otherwise the query parameters and headers are
built. -/
def negotiate (h : HttpResult) : Except PyErr (Option NegotiateResult) :=
  match h with
  | HttpResult.failure => Except.ok none
  | HttpResult.success body setCookie =>
    match lookup body "ConnectionToken" with
    | none => Except.error PyErr.keyError
    | some tok => Except.ok (some { token := tok, cookie := setCookie.getD "" })

/-- How one iteration of the `connectLiveTiming` loop (lines 127-134)
resolves its negotiation phase. -/
inductive NegotiationOutcome where
  | proceed (r : NegotiateResult) : NegotiationOutcome
  | retryAfterBackoff : NegotiationOutcome
  | terminate : NegotiationOutcome
  | escape (e : PyErr) : NegotiationOutcome

/-- The negotiation phase of one `connectLiveTiming` loop iteration
(`publisher/timing.py` lines 127-134): the `negotiate()` call sits outside
the `try`, so an exception it raises escapes the loop; the `None` sentinel
(`if not params`) is handled per the retry flag; otherwise the loop
proceeds to connect. -/
def negotiationPhase (retry : Bool) (h : HttpResult) : NegotiationOutcome :=
  match negotiate h with
  | Except.error e => NegotiationOutcome.escape e
  | Except.ok none =>
    if retry then NegotiationOutcome.retryAfterBackoff else NegotiationOutcome.terminate
  | Except.ok (some r) => NegotiationOutcome.proceed r

/-- `coll.pop(id)` for each listed id. -/
def removeKeysList (coll : JObj) (ids : List String) : JObj :=
  ids.foldl removeKey coll

/-- Modelled from the spec: the ids named under the reserved deletion
marker of a delta. The per-topic feed handler carrying this marker is
absent from `src/` (only consumers of its feeds are present); per §4.4 the
marker lists entries to remove from an id-keyed collection. -/
def deletionIds (marker : String) (delta : JObj) : List String :=
  match lookup delta marker with
  | some (Json.arr ids) =>
    ids.filterMap fun j =>
      match j with
      | Json.str s => some s
      | _ => none
  | _ => []

/-- Modelled from the spec: the per-topic merge extension of §4.4 — the
entries named under the reserved deletion marker are removed from the
cached collection first, and only then is the rest of the same delta
merged by `updateDictDelta`. -/
def mergeWithDeletion (marker : String) (coll delta : JObj) : JObj :=
  updateDictDelta (removeKeysList coll (deletionIds marker delta)) (removeKey delta marker)

/-- Numeric value of a decimal digit character. -/
def charDigit (c : Char) : Nat :=
  c.toNat - 48

/-- Numeric value of a character list read as a decimal numeral,
most-significant digit first. Used to invert `Nat.repr`. -/
def decValue (l : List Char) : Nat :=
  l.foldl (fun a c => 10 * a + charDigit c) 0

/-! ### Decimal representation: `Nat.repr` is injective -/

theorem charDigit_digitChar {n : Nat} (h : n < 10) :
    charDigit (Nat.digitChar n) = n := by
  interval_cases n <;> rfl

theorem foldl_decValue (A : Nat) (l : List Char) :
    l.foldl (fun a c => 10 * a + charDigit c) A = A * 10 ^ l.length + decValue l := by
  induction l generalizing A with
  | nil => simp [decValue]
  | cons c t ih =>
    have hc : decValue (c :: t) = t.foldl (fun a c => 10 * a + charDigit c) (charDigit c) := by
      simp [decValue]
    rw [List.foldl_cons, ih, hc, ih (charDigit c), List.length_cons]
    ring

theorem decValue_toDigitsCore (fuel : Nat) :
    ∀ n ds, n < fuel →
      decValue (Nat.toDigitsCore 10 fuel n ds) = n * 10 ^ ds.length + decValue ds := by
  induction fuel with
  | zero => omega
  | succ fuel ih =>
    intro n ds h
    have hd : decValue (Nat.digitChar (n % 10) :: ds)
        = n % 10 * 10 ^ ds.length + decValue ds := by
      have : decValue (Nat.digitChar (n % 10) :: ds)
          = ds.foldl (fun a c => 10 * a + charDigit c) (charDigit (Nat.digitChar (n % 10))) := by
        simp [decValue]
      rw [this, foldl_decValue, charDigit_digitChar (Nat.mod_lt _ (by norm_num))]
    simp only [Nat.toDigitsCore]
    by_cases h10 : n / 10 = 0
    · rw [if_pos h10, hd]
      have hlt : n < 10 := by omega
      rw [Nat.mod_eq_of_lt hlt]
    · rw [if_neg h10]
      have hpos : 0 < n := by
        rcases Nat.eq_zero_or_pos n with h0 | h0
        · subst h0; simp at h10
        · exact h0
      have hdiv : n / 10 < n := Nat.div_lt_self hpos (by norm_num)
      rw [ih (n / 10) _ (by omega), hd, List.length_cons]
      have heq : n / 10 * 10 ^ (ds.length + 1) + (n % 10 * 10 ^ ds.length + decValue ds)
          = (n / 10 * 10 + n % 10) * 10 ^ ds.length + decValue ds := by ring
      have hsum : n / 10 * 10 + n % 10 = n := by omega
      rw [heq, hsum]

theorem decValue_repr (n : Nat) : decValue (Nat.repr n).data = n := by
  show decValue ((Nat.toDigits 10 n).asString).data = n
  have : ((Nat.toDigits 10 n).asString).data = Nat.toDigits 10 n := rfl
  rw [this]
  show decValue (Nat.toDigitsCore 10 (n + 1) n []) = n
  rw [decValue_toDigitsCore (n + 1) n [] (by omega)]
  simp [decValue]

theorem repr_injective {a b : Nat} (h : Nat.repr a = Nat.repr b) : a = b := by
  have ha := decValue_repr a
  have hb := decValue_repr b
  rw [h] at ha
  omega

/-! ### Dict operations: `lookup`, `setKey`, `removeKey` -/

theorem keys_cons {α : Type} (k1 : String) (v1 : α) (t : List (String × α)) :
    keys ((k1, v1) :: t) = k1 :: keys t := rfl

theorem mem_keys_cons {α : Type} {k k1 : String} {v1 : α} {t : List (String × α)} :
    k ∈ keys ((k1, v1) :: t) ↔ k = k1 ∨ k ∈ keys t := by
  rw [keys_cons, List.mem_cons]

theorem lookup_setKey_self {α : Type} (l : List (String × α)) (k : String) (v : α) :
    lookup (setKey l k v) k = some v := by
  induction l with
  | nil => simp [setKey, lookup]
  | cons p t ih =>
    obtain ⟨k1, v1⟩ := p
    by_cases h : k1 = k
    · subst h; simp [setKey, lookup]
    · simp [setKey, lookup, h, ih]

theorem lookup_setKey_ne {α : Type} (l : List (String × α)) {k k' : String} (v : α)
    (h : k' ≠ k) : lookup (setKey l k v) k' = lookup l k' := by
  induction l with
  | nil => simp [setKey, lookup, Ne.symm h]
  | cons p t ih =>
    obtain ⟨k1, v1⟩ := p
    by_cases h1 : k1 = k
    · subst h1
      simp [setKey, lookup, Ne.symm h]
    · by_cases h2 : k1 = k'
      · simp [setKey, lookup, h, h1, h2]
      · simp [setKey, lookup, h, h1, h2, ih]

theorem mem_keys_iff_lookup {α : Type} {l : List (String × α)} {k : String} :
    k ∈ keys l ↔ lookup l k ≠ none := by
  induction l with
  | nil => simp [keys, lookup]
  | cons p t ih =>
    obtain ⟨k1, v1⟩ := p
    by_cases h : k1 = k
    · subst h; simp [mem_keys_cons, lookup]
    · simp [mem_keys_cons, lookup, h, Ne.symm h, ih]

theorem lookup_eq_none_of_not_mem {α : Type} {l : List (String × α)} {k : String}
    (h : k ∉ keys l) : lookup l k = none := by
  by_cases hl : lookup l k = none
  · exact hl
  · exact absurd (mem_keys_iff_lookup.2 hl) h

theorem keys_setKey_of_mem {α : Type} {k : String} (v : α) :
    ∀ {l : List (String × α)}, k ∈ keys l → keys (setKey l k v) = keys l := by
  intro l
  induction l with
  | nil => intro h; simp [keys] at h
  | cons p t ih =>
    intro h
    obtain ⟨k1, v1⟩ := p
    by_cases h1 : k1 = k
    · subst h1; simp [setKey, keys_cons]
    · have ht : k ∈ keys t := by
        rcases mem_keys_cons.1 h with h2 | h2
        · exact absurd h2.symm h1
        · exact h2
      simp [setKey, keys_cons, h1, ih ht]

theorem setKey_of_not_mem {α : Type} {k : String} (v : α) :
    ∀ {l : List (String × α)}, k ∉ keys l → setKey l k v = l ++ [(k, v)] := by
  intro l
  induction l with
  | nil => intro _; simp [setKey]
  | cons p t ih =>
    intro h
    obtain ⟨k1, v1⟩ := p
    have h1 : k1 ≠ k := fun he => h (mem_keys_cons.2 (Or.inl he.symm))
    have ht : k ∉ keys t := fun hm => h (mem_keys_cons.2 (Or.inr hm))
    simp [setKey, h1, ih ht]

theorem lookup_eq_some_of_mem_nodup {α : Type} {k : String} {v : α} :
    ∀ {l : List (String × α)}, (keys l).Nodup → (k, v) ∈ l → lookup l k = some v := by
  intro l
  induction l with
  | nil => intro _ h; simp at h
  | cons p t ih =>
    intro hnd h
    obtain ⟨k1, v1⟩ := p
    rw [keys_cons, List.nodup_cons] at hnd
    rcases List.mem_cons.1 h with h1 | h1
    · cases h1
      simp [lookup]
    · have hne : k1 ≠ k := by
        intro he
        subst he
        exact hnd.1 (by simpa [keys] using List.mem_map_of_mem Prod.fst h1)
      simp only [lookup, if_neg hne]
      exact ih hnd.2 h1

theorem setKey_eq_map_of_nodup {α : Type} {k : String} (v : α) :
    ∀ {l : List (String × α)}, (keys l).Nodup → k ∈ keys l →
      setKey l k v = l.map (fun p => if p.1 = k then (k, v) else p) := by
  intro l
  induction l with
  | nil => intro _ h; simp [keys] at h
  | cons p t ih =>
    intro hnd h
    obtain ⟨k1, v1⟩ := p
    rw [keys_cons, List.nodup_cons] at hnd
    by_cases h1 : k1 = k
    · subst h1
      simp only [setKey, if_pos rfl, List.map_cons, List.cons.injEq, true_and]
      have hall : ∀ p ∈ t, (if p.1 = k1 then (k1, v) else p) = p := by
        intro q hq
        have hqk : q.1 ≠ k1 := by
          intro he
          exact hnd.1 (he ▸ by simpa [keys] using List.mem_map_of_mem Prod.fst hq)
        simp [hqk]
      rw [List.map_congr_left hall]
      simp
    · have ht : k ∈ keys t := by
        rcases mem_keys_cons.1 h with h2 | h2
        · exact absurd h2.symm h1
        · exact h2
      simp only [setKey, if_neg h1, List.map_cons, if_neg h1, List.cons.injEq, true_and]
      exact ih hnd.2 ht

/-! ### `updateDictDelta`: general lemmas -/

theorem updateDictDelta_nil (obj : JObj) : updateDictDelta obj [] = obj := by
  simp [updateDictDelta]

theorem updateDictDelta_cons (obj : JObj) (k : String) (v : Json) (rest : JObj) :
    updateDictDelta obj ((k, v) :: rest)
      = updateDictDelta (setKey obj k (applyVal (lookup obj k) v)) rest := by
  simp [updateDictDelta]

theorem lookup_updateDictDelta_not_mem {obj dv : JObj} {k : String}
    (h : k ∉ keys dv) : lookup (updateDictDelta obj dv) k = lookup obj k := by
  induction dv generalizing obj with
  | nil => simp [updateDictDelta]
  | cons p t ih =>
    obtain ⟨k', v'⟩ := p
    simp only [keys, List.map_cons, List.mem_cons] at h
    push_neg at h
    rw [updateDictDelta_cons, ih (by simpa [keys] using h.2),
      lookup_setKey_ne _ _ (h.1)]

theorem keys_updateDictDelta_of_sub {dv : JObj} :
    ∀ {obj : JObj}, (∀ k ∈ keys dv, k ∈ keys obj) →
      keys (updateDictDelta obj dv) = keys obj := by
  induction dv with
  | nil => intro obj _; simp [updateDictDelta]
  | cons p t ih =>
    intro obj hsub
    obtain ⟨k, v⟩ := p
    have hk : k ∈ keys obj := hsub k (by simp [keys])
    rw [updateDictDelta_cons]
    have hkeys := keys_setKey_of_mem (applyVal (lookup obj k) v) hk
    rw [ih (fun k' hk' => hkeys ▸ hsub k' (by simp [keys] at hk' ⊢; exact Or.inr hk')),
      hkeys]

/-- The pointwise form of `updateDictDelta` when every delta key is already
present: each binding of `obj` is transformed in place according to the
delta value bound to its key, so key order is preserved exactly. -/
theorem updateDictDelta_map_form {dv : JObj} :
    ∀ {obj : JObj}, (keys obj).Nodup → (keys dv).Nodup →
      (∀ k ∈ keys dv, k ∈ keys obj) →
      updateDictDelta obj dv
        = obj.map (fun p =>
            match lookup dv p.1 with
            | some v => (p.1, applyVal (some p.2) v)
            | none => p) := by
  induction dv with
  | nil =>
    intro obj _ _ _
    simp [updateDictDelta, lookup]
  | cons p t ih =>
    intro obj hno hnd hsub
    obtain ⟨k, v⟩ := p
    simp only [keys, List.map_cons, List.nodup_cons] at hnd
    have hk : k ∈ keys obj := hsub k (by simp [keys])
    rw [updateDictDelta_cons]
    have hset := setKey_eq_map_of_nodup (applyVal (lookup obj k) v) hno hk
    have hkeys' : keys (setKey obj k (applyVal (lookup obj k) v)) = keys obj :=
      keys_setKey_of_mem _ hk
    rw [ih (hkeys' ▸ hno) hnd.2
      (fun k' hk' => hkeys' ▸ hsub k' (by simp [keys] at hk' ⊢; exact Or.inr hk')), hset,
      List.map_map]
    refine List.map_congr_left ?_
    rintro ⟨q1, q2⟩ hq
    by_cases hq1 : q1 = k
    · subst hq1
      have hlq : lookup obj q1 = some q2 := lookup_eq_some_of_mem_nodup hno hq
      have hlt : lookup t q1 = none :=
        lookup_eq_none_of_not_mem (by simpa [keys] using hnd.1)
      simp [Function.comp, lookup, hlt, hlq]
    · have hq1' : ¬k = q1 := fun he => hq1 he.symm
      simp [Function.comp, lookup, hq1, hq1']

/-! ### `enumFrom` lemmas -/

theorem enumFrom_map_snd (i : Nat) (xs : List Json) :
    (enumFrom i xs).map Prod.snd = xs := by
  induction xs generalizing i with
  | nil => simp [enumFrom]
  | cons x t ih => simp [enumFrom, ih]

theorem enumFrom_getElem? (i j : Nat) (xs : List Json) :
    (enumFrom i xs)[j]? = xs[j]?.map (fun x => (Nat.repr (i + j), x)) := by
  induction xs generalizing i j with
  | nil => simp [enumFrom]
  | cons x t ih =>
    cases j with
    | zero => simp [enumFrom]
    | succ j =>
      simp only [enumFrom, List.getElem?_cons_succ, ih (i + 1) j]
      have : i + 1 + j = i + (j + 1) := by omega
      rw [this]

theorem mem_keys_enumFrom {k : String} {i : Nat} {xs : List Json} :
    k ∈ keys (enumFrom i xs) ↔ ∃ j, j < xs.length ∧ k = Nat.repr (i + j) := by
  induction xs generalizing i with
  | nil => simp [enumFrom, keys]
  | cons x t ih =>
    simp only [enumFrom, keys, List.map_cons, List.mem_cons, List.length_cons]
    constructor
    · rintro (h | h)
      · exact ⟨0, by omega, by simpa using h⟩
      · obtain ⟨j, hj, hk⟩ := (@ih (i + 1)).1 (by simpa [keys] using h)
        exact ⟨j + 1, by omega, by rw [hk]; congr 1; omega⟩
    · rintro ⟨j, hj, hk⟩
      cases j with
      | zero => exact Or.inl (by simpa using hk)
      | succ j =>
        refine Or.inr ?_
        have : k ∈ keys (enumFrom (i + 1) t) :=
          (@ih (i + 1)).2 ⟨j, by omega, by rw [hk]; congr 1; omega⟩
        simpa [keys] using this

theorem keys_enumFrom_nodup (i : Nat) (xs : List Json) :
    (keys (enumFrom i xs)).Nodup := by
  induction xs generalizing i with
  | nil => simp [enumFrom, keys]
  | cons x t ih =>
    simp only [enumFrom, keys, List.map_cons, List.nodup_cons]
    refine ⟨fun h => ?_, by simpa [keys] using ih (i + 1)⟩
    obtain ⟨j, _, hk⟩ := (@mem_keys_enumFrom (Nat.repr i) (i + 1) t).1 (by simpa [keys] using h)
    have := repr_injective hk
    omega

theorem lookup_enumFrom_of_lt {xs : List Json} :
    ∀ {i j : Nat}, j < xs.length →
      lookup (enumFrom i xs) (Nat.repr (i + j)) = xs[j]? := by
  induction xs with
  | nil => intro i j h; simp at h
  | cons x t ih =>
    intro i j h
    cases j with
    | zero => simp [enumFrom, lookup]
    | succ j =>
      have hne : Nat.repr i ≠ Nat.repr (i + (j + 1)) := by
        intro he
        have := repr_injective he
        omega
      simp only [enumFrom, lookup, if_neg hne, List.getElem?_cons_succ]
      have : i + (j + 1) = i + 1 + j := by omega
      rw [this, ih (by simpa using h)]

theorem enumFrom_length (i : Nat) (xs : List Json) :
    (enumFrom i xs).length = xs.length := by
  induction xs generalizing i with
  | nil => simp [enumFrom]
  | cons x t ih => simp [enumFrom, ih]

theorem mem_keys_enumerate {k : String} {xs : List Json} :
    k ∈ keys (enumerate xs) ↔ ∃ j, j < xs.length ∧ k = Nat.repr j := by
  rw [enumerate, mem_keys_enumFrom]
  constructor
  · rintro ⟨j, hj, hk⟩
    exact ⟨j, hj, by simpa using hk⟩
  · rintro ⟨j, hj, hk⟩
    exact ⟨j, hj, by simpa using hk⟩

theorem lookup_enumerate_eq_none {k : String} {xs : List Json}
    (h : ∀ j, j < xs.length → k ≠ Nat.repr j) : lookup (enumerate xs) k = none := by
  refine lookup_eq_none_of_not_mem ?_
  intro hm
  obtain ⟨j, hj, hk⟩ := mem_keys_enumerate.1 hm
  exact h j hj hk

/-! ### `removeKey` lemmas -/

theorem mem_keys_of_mem_keys_removeKey {α : Type} {k k' : String} :
    ∀ {l : List (String × α)}, k ∈ keys (removeKey l k') → k ∈ keys l := by
  intro l
  induction l with
  | nil => intro h; simpa [removeKey] using h
  | cons p t ih =>
    intro h
    obtain ⟨k1, v1⟩ := p
    by_cases h1 : k1 = k'
    · subst h1
      rw [removeKey, if_pos rfl] at h
      exact mem_keys_cons.2 (Or.inr h)
    · rw [removeKey, if_neg h1] at h
      rcases mem_keys_cons.1 h with h2 | h2
      · exact mem_keys_cons.2 (Or.inl h2)
      · exact mem_keys_cons.2 (Or.inr (ih h2))

theorem keys_removeKey_nodup {α : Type} {k : String} :
    ∀ {l : List (String × α)}, (keys l).Nodup → (keys (removeKey l k)).Nodup := by
  intro l
  induction l with
  | nil => intro _; simp [removeKey, keys]
  | cons p t ih =>
    intro hnd
    obtain ⟨k1, v1⟩ := p
    rw [keys_cons, List.nodup_cons] at hnd
    by_cases h1 : k1 = k
    · subst h1
      rw [removeKey, if_pos rfl]
      exact hnd.2
    · rw [removeKey, if_neg h1, keys_cons, List.nodup_cons]
      exact ⟨fun hm => hnd.1 (mem_keys_of_mem_keys_removeKey hm), ih hnd.2⟩

theorem lookup_removeKey_self_of_nodup {α : Type} {k : String} :
    ∀ {l : List (String × α)}, (keys l).Nodup → lookup (removeKey l k) k = none := by
  intro l
  induction l with
  | nil => intro _; simp [removeKey, lookup]
  | cons p t ih =>
    intro hnd
    obtain ⟨k1, v1⟩ := p
    rw [keys_cons, List.nodup_cons] at hnd
    by_cases h1 : k1 = k
    · subst h1
      rw [removeKey, if_pos rfl]
      exact lookup_eq_none_of_not_mem hnd.1
    · rw [removeKey, if_neg h1, lookup, if_neg h1]
      exact ih hnd.2

theorem removeKey_of_not_mem {α : Type} {k : String} :
    ∀ {l : List (String × α)}, k ∉ keys l → removeKey l k = l := by
  intro l
  induction l with
  | nil => intro _; simp [removeKey]
  | cons p t ih =>
    intro h
    obtain ⟨k1, v1⟩ := p
    have h1 : k1 ≠ k := fun he => h (mem_keys_cons.2 (Or.inl he.symm))
    have ht : k ∉ keys t := fun hm => h (mem_keys_cons.2 (Or.inr hm))
    simp [removeKey, h1, ih ht]

theorem lookup_removeKey_none {α : Type} {k k' : String} :
    ∀ {l : List (String × α)}, lookup l k = none → lookup (removeKey l k') k = none := by
  intro l h
  refine lookup_eq_none_of_not_mem ?_
  intro hm
  have := mem_keys_iff_lookup.1 (mem_keys_of_mem_keys_removeKey hm)
  exact this h

theorem keys_removeKeysList_nodup {coll : JObj} (ids : List String)
    (hnd : (keys coll).Nodup) : (keys (removeKeysList coll ids)).Nodup := by
  induction ids generalizing coll with
  | nil => exact hnd
  | cons i t ih =>
    rw [removeKeysList, List.foldl_cons]
    exact ih (keys_removeKey_nodup hnd)

theorem lookup_removeKeysList_of_mem {nm : String} :
    ∀ (ids : List String) (coll : JObj), (keys coll).Nodup → nm ∈ ids →
      lookup (removeKeysList coll ids) nm = none := by
  intro ids
  induction ids with
  | nil => intro coll _ h; simp at h
  | cons i t ih =>
    intro coll hnd hm
    rw [removeKeysList, List.foldl_cons]
    rcases List.mem_cons.1 hm with h1 | h1
    · subst h1
      have hnone : lookup (removeKey coll nm) nm = none :=
        lookup_removeKey_self_of_nodup hnd
      by_cases hmt : nm ∈ t
      · exact ih (removeKey coll nm) (keys_removeKey_nodup hnd) hmt
      · have : ∀ (js : List String) (c : JObj), lookup c nm = none →
            lookup (removeKeysList c js) nm = none := by
          intro js
          induction js with
          | nil => intro c hc; exact hc
          | cons j u ihu =>
            intro c hc
            rw [removeKeysList, List.foldl_cons]
            exact ihu (removeKey c j) (lookup_removeKey_none hc)
        exact this t (removeKey coll nm) hnone
    · exact ih (removeKey coll i) (keys_removeKey_nodup hnd) h1

theorem filterMap_str (ids : List String) :
    (ids.map Json.str).filterMap (fun j =>
      match j with
      | Json.str s => some s
      | _ => none) = ids := by
  induction ids with
  | nil => simp
  | cons i t ih => simp [ih]

theorem lookup_singleton_self {α : Type} (k : String) (v : α) :
    lookup [(k, v)] k = some v := by
  simp [lookup]

theorem setKey_singleton_self {α : Type} (k : String) (v w : α) :
    setKey [(k, v)] k w = [(k, w)] := by
  simp [setKey]

theorem applyVal_arr_obj (xs : List Json) (dv : JObj) :
    applyVal (some (Json.arr xs)) (Json.obj dv)
      = Json.arr ((updateDictDelta (enumerate xs) dv).map Prod.snd) := by
  simp [applyVal]

theorem applyVal_none (v : Json) : applyVal none v = v := by
  simp [applyVal]

/-! ### Literal decimal representations, for concrete evaluation -/

theorem reprLit0 : Nat.repr 0 = "0" := rfl

theorem reprLit1 : Nat.repr 1 = "1" := rfl

theorem reprLit2 : Nat.repr 2 = "2" := rfl

theorem reprLit3 : Nat.repr 3 = "3" := rfl

theorem reprLit4 : Nat.repr 4 = "4" := rfl

/-! ### Claims -/

/-- C9: merging an empty delta is a no-op: for every base dict,
`updateDictDelta base {} = base` — the loop over `delta.items()` has no
iterations and the base dict is returned unchanged. -/
theorem C9_merge_empty_delta_is_noop (base : JObj) :
    updateDictDelta base [] = base := by
  simp [updateDictDelta]

/-- C8: for one debounce key with a 3-unit window, arrivals at t=0, t=1 and
t=2 produce exactly one flush, at t=5, whose payload is the merge (via
`updateDictDelta`, folded left over an initially empty buffer) of all three
partial updates; the buffer and timer are then cleared, so the arrival at
t=6 starts an independent buffer holding only that arrival (flushed alone
at t=9). -/
theorem C8_debounce_three_arrivals_single_flush (m0 m1 m2 m3 : JObj) :
    debouncerRun 3 ⟨[], none⟩ [(0, m0), (1, m1), (2, m2), (6, m3)]
      = [(5, updateDictDelta (updateDictDelta (updateDictDelta [] m0) m1) m2),
         (9, updateDictDelta [] m3)] := by
  simp [debouncerRun, addMessage]

/-- C1 counterexample: a delta payload carrying the top-level `_kf` key is
published with `_kf` removed (tyre.py pops it before the Heartbeat check),
so the publish payload is not the received partial-update itself, and what
is merged into the store is the popped update too. -/
theorem C1_counterexample :
    (tyreProcessRecord ⟨[], []⟩
        ⟨"Streaming", "Topic", [("_kf", Json.bool true), ("b", Json.num 2)]⟩).published
      = [("Topic", [("b", Json.num 2)])]
      ∧ ([("b", Json.num 2)] : JObj) ≠ [("_kf", Json.bool true), ("b", Json.num 2)] := by
  constructor
  · simp [tyreProcessRecord, removeKey, updateDictDelta, applyVal, setKey, lookup]
  · simp

/-- C1 (amended): for a non-Heartbeat delta record on the `Streaming` hub,
the tyre handler pops the top-level bookkeeping key `_kf` from the partial
update, persists the merge of the popped update onto the cached canonical
value (an empty dict when absent), and appends exactly one publish event
carrying the popped (still unmerged) update — which is the received
partial update itself whenever the payload carries no `_kf` key; feeding
the Reference frame for `Topic = {a: 1}` and then the delta `{b: 2}` ends
with canonical state `{a: 1, b: 2}` and a single publish of `{b: 2}`. -/
theorem C1_delta_merge_and_single_publish (st : PubState) (r : Record)
    (hhub : r.hub = "Streaming") (htopic : r.topic ≠ "Heartbeat") :
    lookup (tyreProcessRecord st r).store r.topic
        = some (updateDictDelta ((lookup st.store r.topic).getD [])
            (removeKey r.data "_kf"))
      ∧ (tyreProcessRecord st r).published
          = st.published ++ [(r.topic, removeKey r.data "_kf")]
      ∧ ("_kf" ∉ keys r.data →
          (tyreProcessRecord st r).published = st.published ++ [(r.topic, r.data)])
      ∧ tyreRun ⟨[], []⟩
          [⟨[("Topic", [("a", Json.num 1)])], []⟩,
           ⟨[], [⟨"Streaming", "Topic", [("b", Json.num 2)]⟩]⟩]
          = ⟨[("Topic", [("a", Json.num 1), ("b", Json.num 2)])],
             [("Topic", [("b", Json.num 2)])]⟩ := by
  refine ⟨?_, ?_, ?_, ?_⟩
  · simp [tyreProcessRecord, hhub, htopic, lookup_setKey_self]
  · simp [tyreProcessRecord, hhub, htopic]
  · intro hkf
    simp [tyreProcessRecord, hhub, htopic, removeKey_of_not_mem hkf]
  · simp [tyreRun, tyreProcessMessage, tyreProcessRecord, processReference,
      updateDictDelta, applyVal, setKey, lookup, removeKey]

theorem C1_witness :
    lookup (tyreProcessRecord ⟨[("Topic", [("a", Json.num 1)])], []⟩
        ⟨"Streaming", "Topic", [("b", Json.num 2)]⟩).store "Topic"
      = some (updateDictDelta [("a", Json.num 1)] [("b", Json.num 2)]) := by
  have h := (C1_delta_merge_and_single_publish
    ⟨[("Topic", [("a", Json.num 1)])], []⟩
    ⟨"Streaming", "Topic", [("b", Json.num 2)]⟩ rfl (by simp)).1
  simp only [lookup, removeKey, if_pos rfl] at h
  exact h

/-- C2: when `base[k]` is a sequence and `delta[k]` is a map whose keys are
all decimal indices into the sequence, the merge goes through the
index-keyed dict: every addressed position is updated in place by
`applyVal` (recursing for nested maps) and the re-linearisation preserves
the original index order, so unaddressed positions are untouched; in
particular `["A","B","C"]` patched with `{"1": "X"}` gives
`["A","X","C"]`. -/
theorem C2_index_addressed_sequence_patch (xs : List Json) (dv : JObj)
    (hnd : (keys dv).Nodup)
    (hidx : ∀ k ∈ keys dv, ∃ j, j < xs.length ∧ k = Nat.repr j) :
    (∃ ys : List Json,
      updateDictDelta [("field", Json.arr xs)] [("field", Json.obj dv)]
          = [("field", Json.arr ys)]
        ∧ ys.length = xs.length
        ∧ (∀ j, j < xs.length →
            ys[j]? = xs[j]?.map (fun x =>
              match lookup dv (Nat.repr j) with
              | some v => applyVal (some x) v
              | none => x)))
      ∧ updateDictDelta [("field", Json.arr [Json.str "A", Json.str "B", Json.str "C"])]
            [("field", Json.obj [("1", Json.str "X")])]
          = [("field", Json.arr [Json.str "A", Json.str "X", Json.str "C"])] := by
  constructor
  · have hsub : ∀ k ∈ keys dv, k ∈ keys (enumerate xs) := by
      intro k hk
      obtain ⟨j, hj, he⟩ := hidx k hk
      exact mem_keys_enumerate.2 ⟨j, hj, he⟩
    have hmap := @updateDictDelta_map_form dv (enumerate xs)
      (keys_enumFrom_nodup 0 xs) hnd hsub
    refine ⟨(updateDictDelta (enumerate xs) dv).map Prod.snd, ?_, ?_, ?_⟩
    · simp [updateDictDelta, applyVal, setKey, lookup]
    · rw [hmap]
      simp [enumerate, enumFrom_length]
    · intro j hj
      rw [hmap, List.getElem?_map, List.getElem?_map]
      rw [enumerate, enumFrom_getElem? 0 j xs]
      cases hx : xs[j]? with
      | none => simp
      | some x =>
        simp only [Option.map_some, Option.map_map]
        have hz : (0 : Nat) + j = j := by omega
        rw [hz]
        rcases hl : lookup dv (Nat.repr j) with _ | v <;>
          simp [Function.comp, hl]
  · simp [updateDictDelta, applyVal, setKey, lookup, enumerate, enumFrom,
      reprLit0, reprLit1, reprLit2]

theorem C2_witness :
    updateDictDelta [("field", Json.arr [Json.str "A", Json.str "B", Json.str "C"])]
        [("field", Json.obj [("1", Json.str "X")])]
      = [("field", Json.arr [Json.str "A", Json.str "X", Json.str "C"])] := by
  refine (C2_index_addressed_sequence_patch
    [Json.str "A", Json.str "B", Json.str "C"] [("1", Json.str "X")]
    (by simp [keys]) ?_).2
  intro k hk
  simp [keys] at hk
  exact ⟨1, by simp, by rw [hk, reprLit1]⟩

/-- C3 counterexample: in the timing/tyre Reference block, a snapshot
carrying a top-level `_kf` entry is not persisted verbatim — the stored
value lacks `_kf` — so the claim that the persisted value is exactly the
received snapshot fails. The prior cached value is still replaced
wholesale. -/
theorem C3_counterexample :
    processReference [("Topic", [("x", Json.num 9)])]
        [("Topic", [("_kf", Json.bool true), ("a", Json.num 1)])]
      = [("Topic", [("a", Json.num 1)])]
      ∧ ([("a", Json.num 1)] : JObj) ≠ [("_kf", Json.bool true), ("a", Json.num 1)] := by
  constructor
  · simp [processReference, removeKey, setKey]
  · simp

/-- C3 (amended): every Reference snapshot replaces the cached state for
its topic wholesale — the stored value does not depend on what was cached,
and other topics are untouched — and is persisted verbatim except that the
top-level reserved bookkeeping key `_kf` is removed first (in the
telemetry handler after base64-decode and raw-deflate inflation, with the
`.z` marker stripped from the topic name). The pit-lane handler alone
persists the snapshot fully verbatim. -/
theorem C3_reference_replaces_wholesale (store tstore pstore : List (String × JObj))
    (inflate : String → JObj) (k k' : String) (v : JObj) (s : String)
    (hne : k' ≠ k) :
    lookup (processReference store [(k, v)]) k = some (removeKey v "_kf")
      ∧ lookup (processReference store [(k, v)]) k' = lookup store k'
      ∧ lookup (telemetryProcessReference inflate tstore [(k, s)]) (stripZ k)
          = some (removeKey (inflate s) "_kf")
      ∧ lookup (pitlaneProcessReference pstore [(k, v)]) k = some v := by
  refine ⟨?_, ?_, ?_, ?_⟩
  · simp [processReference, lookup_setKey_self]
  · simp [processReference, lookup_setKey_ne _ _ hne]
  · simp [telemetryProcessReference, lookup_setKey_self]
  · simp [pitlaneProcessReference, lookup_setKey_self]

theorem C3_witness :
    lookup (processReference [] [("Topic", [("a", Json.num 1)])]) "Topic"
      = some (removeKey [("a", Json.num 1)] "_kf") :=
  (C3_reference_replaces_wholesale [] [] [] (fun _ => []) "Topic" "Other"
    [("a", Json.num 1)] "" (by simp)).1

/-- C4 counterexample: the pit-lane handler has no `Heartbeat` check — with
a cached object present for `Heartbeat` it merges the record into the
store and publishes it, contradicting the claim that every topic handler
discards Heartbeat records with no publish call. -/
theorem C4_counterexample :
    pitlaneProcessRecord ⟨[("Heartbeat", Json.obj [])], []⟩
        ⟨"Streaming", "Heartbeat", [("Utc", Json.str "t")]⟩
      = Except.ok ⟨[("Heartbeat", Json.obj [("Utc", Json.str "t")])],
                   [("Heartbeat", [("Utc", Json.str "t")])]⟩
      ∧ ([("Heartbeat", [("Utc", Json.str "t")])] : List (String × JObj)) ≠ [] := by
  constructor
  · simp [pitlaneProcessRecord, lookup, updateDictDelta, applyVal, setKey]
  · simp

/-- C4 (amended): Heartbeat delta records are discarded, with no merge and
no publish, by the handlers that check for them — timing, tyre and radio.
The pit-lane handler has no such check and treats Heartbeat like any other
topic: with a cached object it merges and publishes the record; with
nothing cached it raises a `TypeError` on a non-empty payload (tearing the
connection down), while an empty payload stores `null` and still publishes
the empty delta. The telemetry handler fails inside payload decompression
instead. -/
theorem C4_heartbeat_discarded_by_checking_handlers :
    (∀ (st : PubState) (d : JObj),
        tyreProcessRecord st ⟨"Streaming", "Heartbeat", d⟩ = st)
      ∧ (∀ (t : Nat) (st : TimingState) (d : JObj),
          timingProcessRecord t st ⟨"Streaming", "Heartbeat", d⟩ = st)
      ∧ (∀ (st : RadioState) (d : JObj),
          radioProcessRecord st ⟨"Streaming", "Heartbeat", d⟩ = st)
      ∧ (∀ (published : List (String × JObj)) (k : String) (v : Json) (d : JObj),
          pitlaneProcessRecord ⟨[], published⟩ ⟨"Streaming", "Heartbeat", (k, v) :: d⟩
            = Except.error PyErr.typeError)
      ∧ (∀ (published : List (String × JObj)),
          pitlaneProcessRecord ⟨[], published⟩ ⟨"Streaming", "Heartbeat", []⟩
            = Except.ok ⟨[("Heartbeat", Json.null)], published ++ [("Heartbeat", [])]⟩)
      ∧ (∀ (ref : JObj) (rest : List (String × Json))
            (published : List (String × JObj)) (d : JObj),
          pitlaneProcessRecord ⟨("Heartbeat", Json.obj ref) :: rest, published⟩
              ⟨"Streaming", "Heartbeat", d⟩
            = Except.ok ⟨("Heartbeat", Json.obj (updateDictDelta ref d)) :: rest,
                published ++ [("Heartbeat", d)]⟩)
      ∧ (∀ (inflate : String → JObj) (st : PubState) (d : JObj),
          telemetryProcessRecord inflate st "Streaming" "Heartbeat" (Json.obj d)
            = Except.error PyErr.typeError) := by
  refine ⟨?_, ?_, ?_, ?_, ?_, ?_, ?_⟩
  · intro st d
    simp [tyreProcessRecord]
  · intro t st d
    simp [timingProcessRecord]
  · intro st d
    simp [radioProcessRecord]
  · intro published k v d
    simp [pitlaneProcessRecord, lookup]
  · intro published
    simp [pitlaneProcessRecord, lookup, setKey]
  · intro ref rest published d
    cases d with
    | nil => simp [pitlaneProcessRecord, lookup, setKey, updateDictDelta]
    | cons p tl => simp [pitlaneProcessRecord, lookup, setKey]
  · intro inflate st d
    simp [telemetryProcessRecord]

/-- C5 (the deletion-marker merge extension, modelled from the spec): a
delta that names entry ids under the reserved deletion marker has those
entries removed from the cached collection before the rest of the same
delta is merged; ids not re-introduced by the delta are absent from the
result even when updates for other ids arrive in the same delta. The
concrete instance removes `"44"` while the same delta updates `"55"`. -/
theorem C5_deletion_marker_removes_entries (marker : String) (coll dv : JObj)
    (ids : List String) (hnd : (keys coll).Nodup) :
    mergeWithDeletion marker coll ((marker, Json.arr (ids.map Json.str)) :: dv)
        = updateDictDelta (removeKeysList coll ids) dv
      ∧ (∀ nm ∈ ids, nm ∉ keys dv →
          lookup (mergeWithDeletion marker coll
            ((marker, Json.arr (ids.map Json.str)) :: dv)) nm = none)
      ∧ lookup (mergeWithDeletion "_deleted"
            [("44", Json.num 1), ("55", Json.num 2)]
            [("_deleted", Json.arr [Json.str "44"]), ("55", Json.num 3)]) "44" = none
      ∧ lookup (mergeWithDeletion "_deleted"
            [("44", Json.num 1), ("55", Json.num 2)]
            [("_deleted", Json.arr [Json.str "44"]), ("55", Json.num 3)]) "55"
          = some (Json.num 3) := by
  have hmain : mergeWithDeletion marker coll ((marker, Json.arr (ids.map Json.str)) :: dv)
      = updateDictDelta (removeKeysList coll ids) dv := by
    rw [mergeWithDeletion]
    have h1 : deletionIds marker ((marker, Json.arr (ids.map Json.str)) :: dv) = ids := by
      rw [deletionIds]
      simp only [lookup, if_pos rfl]
      exact filterMap_str ids
    have h2 : removeKey ((marker, Json.arr (ids.map Json.str)) :: dv) marker = dv := by
      rw [removeKey, if_pos rfl]
    rw [h1, h2]
  refine ⟨hmain, ?_, ?_, ?_⟩
  · intro nm hnm hnotin
    rw [hmain, lookup_updateDictDelta_not_mem hnotin]
    exact lookup_removeKeysList_of_mem ids coll hnd hnm
  · simp [mergeWithDeletion, deletionIds, removeKeysList, removeKey, lookup,
      updateDictDelta, applyVal, setKey]
  · simp [mergeWithDeletion, deletionIds, removeKeysList, removeKey, lookup,
      updateDictDelta, applyVal, setKey]

theorem C5_witness :
    lookup (mergeWithDeletion "_deleted"
        [("44", Json.num 1), ("55", Json.num 2)]
        [("_deleted", Json.arr [Json.str "44"]), ("55", Json.num 3)]) "44" = none :=
  (C5_deletion_marker_removes_entries "_deleted"
    [("44", Json.num 1), ("55", Json.num 2)] [("55", Json.num 3)] ["44"]
    (by simp [keys])).2.2.1

/-- C6 counterexample: with `base.field = ["A"]` and delta
`{"field": {"x": "B"}}` — a map whose key is not a decimal index — the code
does not overwrite wholesale: it still runs the index-addressed path and
appends `"B"`, so the result at `field` is `["A","B"]`, not the delta map. -/
theorem C6_counterexample :
    updateDictDelta [("field", Json.arr [Json.str "A"])]
        [("field", Json.obj [("x", Json.str "B")])]
      = [("field", Json.arr [Json.str "A", Json.str "B"])]
      ∧ Json.arr [Json.str "A", Json.str "B"] ≠ Json.obj [("x", Json.str "B")] := by
  constructor
  · simp [updateDictDelta, applyVal, setKey, lookup, enumerate, enumFrom, reprLit0]
  · simp

/-- C6 (amended): when `base[k]` is a sequence and `delta[k]` is a map, the
merge always runs the index-addressed path regardless of the key shapes:
a key matching no index position has its value appended at the end of the
re-linearised sequence. Wholesale overwrite `base[k] = delta[k]` happens
exactly when `delta[k]` is not a map (for any cached value shape). -/
theorem C6_sequence_map_never_overwritten (xs : List Json) (dv : JObj)
    (k0 k' : String) (v w : Json)
    (hk' : ∀ j, j < xs.length → k' ≠ Nat.repr j)
    (hw : ∀ dw, w ≠ Json.obj dw) :
    updateDictDelta [(k0, Json.arr xs)] [(k0, Json.obj dv)]
        = [(k0, Json.arr ((updateDictDelta (enumerate xs) dv).map Prod.snd))]
      ∧ (updateDictDelta (enumerate xs) [(k', v)]).map Prod.snd = xs ++ [v]
      ∧ updateDictDelta [(k0, Json.arr xs)] [(k0, w)] = [(k0, w)] := by
  refine ⟨?_, ?_, ?_⟩
  · simp [updateDictDelta, applyVal, setKey, lookup]
  · have hnone : lookup (enumerate xs) k' = none := lookup_enumerate_eq_none hk'
    have hnotmem : k' ∉ keys (enumerate xs) := by
      intro hm
      exact mem_keys_iff_lookup.1 hm hnone
    rw [updateDictDelta_cons, updateDictDelta_nil, hnone]
    rw [setKey_of_not_mem _ hnotmem]
    simp [applyVal, enumerate, enumFrom_map_snd]
  · rw [updateDictDelta_cons, updateDictDelta_nil, lookup_singleton_self]
    have happ : applyVal (some (Json.arr xs)) w = w := by
      cases w with
      | obj dw => exact absurd rfl (hw dw)
      | null => simp [applyVal]
      | bool b => simp [applyVal]
      | num n => simp [applyVal]
      | str s => simp [applyVal]
      | arr ys => simp [applyVal]
    rw [happ, setKey_singleton_self]

theorem C6_witness :
    updateDictDelta [("field", Json.arr [Json.str "A"])]
        [("field", Json.obj [("x", Json.str "B")])]
      = [("field", Json.arr ((updateDictDelta (enumerate [Json.str "A"])
          [("x", Json.str "B")]).map Prod.snd))]
      ∧ (updateDictDelta (enumerate [Json.str "A"])
          [("x", Json.str "B")]).map Prod.snd = [Json.str "A", Json.str "B"] := by
  have h := C6_sequence_map_never_overwritten [Json.str "A"] [("x", Json.str "B")]
    "field" "x" (Json.str "B") (Json.arr [])
    (by
      intro j hj
      simp at hj
      subst hj
      rw [reprLit0]
      simp)
    (by intro dw; simp)
  exact ⟨h.1, by rw [h.2.1]; simp⟩

/-- C7 counterexample: a negotiation response that parses but lacks the
`ConnectionToken` key makes `data["ConnectionToken"]` raise a `KeyError`
that is not caught — the loop outcome is an escape, not a retry or a
termination, contradicting the claim that the failure is handled by the
connect loop per the retry policy. -/
theorem C7_counterexample :
    negotiationPhase true (HttpResult.success [] none)
        = NegotiationOutcome.escape PyErr.keyError
      ∧ NegotiationOutcome.escape PyErr.keyError ≠ NegotiationOutcome.retryAfterBackoff
      ∧ NegotiationOutcome.escape PyErr.keyError ≠ NegotiationOutcome.terminate := by
  refine ⟨?_, ?_, ?_⟩
  · simp [negotiationPhase, negotiate, lookup]
  · simp
  · simp

/-- C7 (amended): when the negotiation HTTP call errors (connection error,
bad status, unparseable body), `negotiate` catches the exception and
returns the `None` sentinel, which the connect loop handles per the retry
policy — backoff and renegotiate when retry is enabled, terminate when it
is disabled; but when the response parses and merely lacks a connection
token, the `KeyError` escapes `negotiate` and the connect loop. A present
token lets the loop proceed with that token and the replayed cookie. -/
theorem C7_negotiation_failure_handling (retry : Bool) (body : JObj)
    (cookie : Option String) (tok : Json)
    (hnone : lookup body "ConnectionToken" = none) :
    negotiationPhase retry HttpResult.failure
        = (if retry then NegotiationOutcome.retryAfterBackoff
           else NegotiationOutcome.terminate)
      ∧ negotiationPhase retry (HttpResult.success body cookie)
          = NegotiationOutcome.escape PyErr.keyError
      ∧ negotiationPhase retry (HttpResult.success (("ConnectionToken", tok) :: body) cookie)
          = NegotiationOutcome.proceed ⟨tok, cookie.getD ""⟩ := by
  refine ⟨?_, ?_, ?_⟩
  · simp [negotiationPhase, negotiate]
  · simp [negotiationPhase, negotiate, hnone]
  · simp [negotiationPhase, negotiate, lookup]

theorem C7_witness :
    negotiationPhase true HttpResult.failure = NegotiationOutcome.retryAfterBackoff
      ∧ negotiationPhase true (HttpResult.success [] none)
          = NegotiationOutcome.escape PyErr.keyError := by
  have h := C7_negotiation_failure_handling true [] none Json.null rfl
  exact ⟨by simpa using h.1, h.2.1⟩

/-- C10 counterexample: the claim quantifies over any map containing an
out-of-range decimal key; a delta whose map holds two out-of-range keys
appends both values, so the result has length `n + 2`, not `n + 1`. -/
theorem C10_counterexample :
    updateDictDelta [("field", Json.arr [Json.str "A", Json.str "B", Json.str "C"])]
        [("field", Json.obj [("3", Json.str "X"), ("4", Json.str "Y")])]
      = [("field", Json.arr [Json.str "A", Json.str "B", Json.str "C",
          Json.str "X", Json.str "Y"])]
      ∧ ([Json.str "A", Json.str "B", Json.str "C", Json.str "X", Json.str "Y"] :
          List Json).length
        ≠ ([Json.str "A", Json.str "B", Json.str "C"] : List Json).length + 1 := by
  constructor
  · simp [updateDictDelta, applyVal, setKey, lookup, enumerate, enumFrom,
      reprLit0, reprLit1, reprLit2, reprLit3, reprLit4]
  · simp

/-- C10 (amended): a delta map whose single entry carries a decimal key
`m ≥ n` (the sequence length) appends that entry's value at the end: the
result sequence is `xs ++ [v]`, of length `n + 1`, with the first `n`
elements unchanged and in their original order. -/
theorem C10_out_of_range_index_appends (xs : List Json) (m : Nat) (v : Json)
    (k0 : String) (h : xs.length ≤ m) :
    updateDictDelta [(k0, Json.arr xs)] [(k0, Json.obj [(Nat.repr m, v)])]
        = [(k0, Json.arr (xs ++ [v]))]
      ∧ (xs ++ [v]).length = xs.length + 1
      ∧ (∀ j, j < xs.length → (xs ++ [v])[j]? = xs[j]?) := by
  have hnone : lookup (enumerate xs) (Nat.repr m) = none := by
    refine lookup_enumerate_eq_none ?_
    intro j hj he
    have := repr_injective he
    omega
  have hnotmem : Nat.repr m ∉ keys (enumerate xs) := by
    intro hm
    exact mem_keys_iff_lookup.1 hm hnone
  refine ⟨?_, by simp, ?_⟩
  · rw [updateDictDelta_cons, updateDictDelta_nil, lookup_singleton_self]
    have hud : updateDictDelta (enumerate xs) [(Nat.repr m, v)]
        = enumerate xs ++ [(Nat.repr m, v)] := by
      rw [updateDictDelta_cons, updateDictDelta_nil, hnone, applyVal_none]
      exact setKey_of_not_mem v hnotmem
    have hin : applyVal (some (Json.arr xs)) (Json.obj [(Nat.repr m, v)])
        = Json.arr (xs ++ [v]) := by
      rw [applyVal_arr_obj, hud, List.map_append]
      simp [enumerate, enumFrom_map_snd]
    rw [hin, setKey_singleton_self]
  · intro j hj
    exact List.getElem?_append_left hj

theorem C10_witness :
    updateDictDelta [("field", Json.arr [Json.str "A", Json.str "B", Json.str "C"])]
        [("field", Json.obj [(Nat.repr 5, Json.str "X")])]
      = [("field", Json.arr [Json.str "A", Json.str "B", Json.str "C", Json.str "X"])] := by
  have h := C10_out_of_range_index_appends [Json.str "A", Json.str "B", Json.str "C"]
    5 (Json.str "X") "field" (by simp)
  simpa using h.1

end Pitwall
